import Mathlib

/-!
Verification of the CanvasSync synchronization engine against its
natural-language specification.  The Python source under `CanvasSync/` is
shallowly embedded below: pure computations become Lean functions, the
filesystem and the network are passed explicitly as values (content of the
single file a function touches, the outcome of the single HTTP request it
makes), and Python exceptions that escape a function are modelled with
`Except`/`Option` results.  Timestamps are modelled as integers, byte
strings as `List Nat`, text as `String` or `List Char`.
-/

/-! ### Items and `reorganize` (CanvasSync/utilities/helpers.py) -/

/-- A Canvas module item as consumed by `reorganize`: only the `type` and
`indent` fields are read by the function; `label` stands for the rest of the
JSON dictionary and lets distinct items be distinguished. -/
structure Item where
  type : String
  indent : Nat
  label : String
deriving DecidableEq, Repr

/-- One step of the loop body of `reorganize`: `SubHeader` items append a new
singleton sub-folder; items at the outer indent, or seen before any sub-folder
was opened (`current_sub_folder_index == -1`, i.e. no sub-folder yet), go to
the outer scope; all other items are appended to the most recently opened
sub-folder (`sub_folders[current_sub_folder_index]`, always the last one). -/
def reorganizeStep (outer_indent : Nat)
    (acc : List Item × List (List Item)) (item : Item) :
    List Item × List (List Item) :=
  let outer_scope_files := acc.1
  let sub_folders := acc.2
  if item.type = "SubHeader" then
    (outer_scope_files, sub_folders ++ [[item]])
  else if item.indent = outer_indent ∨ sub_folders = [] then
    (outer_scope_files ++ [item], sub_folders)
  else
    (outer_scope_files, sub_folders.dropLast ++ [sub_folders.getLastD [] ++ [item]])

/-- Shallow embedding of `helpers.reorganize` for list inputs (the dict input
carrying an `errors` key returns `([], [])` like the empty list and is not
modelled separately).  `outer_indent` is the minimum indent over all items,
exactly as computed by the `min(...)` expression in the source. -/
def reorganize (items : List Item) : List Item × List (List Item) :=
  match items with
  | [] => ([], [])
  | first :: _ =>
    let outer_indent := items.foldl (fun m it => min m it.indent) first.indent
    items.foldl (reorganizeStep outer_indent) ([], [])

/-- The very wording of the specification for the grouping rule, written
independently of the source: scanning items in order while carrying the
currently open group, a `SubHeader` closes the open group and opens a new one;
a non-sub-header item with indent strictly greater than the base indent joins
the open group if one is open; any other item goes to the outer scope. -/
def reorganizeSpecAux (base : Nat) :
    List Item → List Item → List (List Item) → Option (List Item) →
    List Item × List (List Item)
  | [], outer, closed, openGroup =>
    (outer, closed ++ (match openGroup with | none => [] | some g => [g]))
  | item :: rest, outer, closed, openGroup =>
    if item.type = "SubHeader" then
      reorganizeSpecAux base rest outer
        (closed ++ (match openGroup with | none => [] | some g => [g]))
        (some [item])
    else if base < item.indent then
      match openGroup with
      | some g => reorganizeSpecAux base rest outer closed (some (g ++ [item]))
      | none => reorganizeSpecAux base rest (outer ++ [item]) closed none
    else
      reorganizeSpecAux base rest (outer ++ [item]) closed openGroup

/-- Spec-level `reorganize`: the base indent is the minimum indent. -/
def reorganizeSpec (items : List Item) : List Item × List (List Item) :=
  match items with
  | [] => ([], [])
  | first :: _ =>
    let base := items.foldl (fun m it => min m it.indent) first.indent
    reorganizeSpecAux base items [] [] none

/-- The optional open group, as a (zero- or one-element) list of groups. -/
def optGroup : Option (List Item) → List (List Item)
  | none => []
  | some g => [g]

lemma foldlMin_le (l : List Item) (a : Nat) :
    (∀ it ∈ l, l.foldl (fun m it => min m it.indent) a ≤ it.indent) ∧
      l.foldl (fun m it => min m it.indent) a ≤ a := by
  induction l generalizing a with
  | nil => simp
  | cons x xs ih =>
    refine ⟨?_, ?_⟩
    · intro it hit
      rcases List.mem_cons.mp hit with h | h
      · subst h
        exact le_trans ((ih (min a it.indent)).2) (min_le_right _ _)
      · exact (ih (min a x.indent)).1 it h
    · exact le_trans ((ih (min a x.indent)).2) (min_le_left _ _)

lemma reorganize_fold_eq_spec (base : Nat) (rest : List Item)
    (hmin : ∀ it ∈ rest, base ≤ it.indent)
    (outer : List Item) (closed : List (List Item)) (g? : Option (List Item))
    (hinv : g? = none → closed = []) :
    rest.foldl (reorganizeStep base) (outer, closed ++ optGroup g?) =
      reorganizeSpecAux base rest outer closed g? := by
  induction rest generalizing outer closed g? with
  | nil => simp [reorganizeSpecAux, optGroup]
  | cons item rest ih =>
    have hbase : base ≤ item.indent := hmin item (List.mem_cons_self _ _)
    have hmin' : ∀ it ∈ rest, base ≤ it.indent :=
      fun it hit => hmin it (List.mem_cons_of_mem _ hit)
    rw [List.foldl_cons]
    by_cases hsub : item.type = "SubHeader"
    · have hstep : reorganizeStep base (outer, closed ++ optGroup g?) item =
          (outer, (closed ++ optGroup g?) ++ [[item]]) := by
        simp [reorganizeStep, hsub]
      have hspec : reorganizeSpecAux base (item :: rest) outer closed g? =
          reorganizeSpecAux base rest outer (closed ++ optGroup g?)
            (some [item]) := by
        cases g? <;> simp [reorganizeSpecAux, hsub, optGroup]
      rw [hstep, hspec]
      have := ih hmin' outer (closed ++ optGroup g?) (some [item])
        (by simp)
      simpa [optGroup] using this
    · cases g? with
      | none =>
        have hcl : closed = [] := hinv rfl
        subst hcl
        have hstep : reorganizeStep base (outer, [] ++ optGroup none) item =
            (outer ++ [item], [] ++ optGroup none) := by
          simp [reorganizeStep, hsub, optGroup]
        have hspec : reorganizeSpecAux base (item :: rest) outer [] none =
            reorganizeSpecAux base rest (outer ++ [item]) [] none := by
          by_cases hind : base < item.indent
          · simp [reorganizeSpecAux, hsub, hind]
          · simp [reorganizeSpecAux, hsub, hind]
        rw [hstep, hspec]
        exact ih hmin' (outer ++ [item]) [] none (fun _ => rfl)
      | some g =>
        by_cases hind : base < item.indent
        · have hne : ¬ item.indent = base := by omega
          have hstep : reorganizeStep base (outer, closed ++ optGroup (some g))
              item = (outer, closed ++ optGroup (some (g ++ [item]))) := by
            simp [reorganizeStep, optGroup, hsub, hne]
          have hspec : reorganizeSpecAux base (item :: rest) outer closed
              (some g) = reorganizeSpecAux base rest outer closed
                (some (g ++ [item])) := by
            simp [reorganizeSpecAux, hsub, hind]
          rw [hstep, hspec]
          exact ih hmin' outer closed (some (g ++ [item])) (by simp)
        · have hind' : item.indent = base := le_antisymm (not_lt.mp hind) hbase
          have hstep : reorganizeStep base (outer, closed ++ optGroup (some g))
              item = (outer ++ [item], closed ++ optGroup (some g)) := by
            simp [reorganizeStep, hsub, hind']
          have hspec : reorganizeSpecAux base (item :: rest) outer closed
              (some g) = reorganizeSpecAux base rest (outer ++ [item]) closed
                (some g) := by
            simp [reorganizeSpecAux, hsub, hind]
          rw [hstep, hspec]
          exact ih hmin' (outer ++ [item]) closed (some g) (by simp)

/-- A sub-header item of the worked example. -/
def exItem (ty : String) (ind : Nat) (lab : String) : Item := ⟨ty, ind, lab⟩

/-- C3: `reorganize` on the example `[A(0), SubHeader1(0), B(1), C(1), D(0)]`
yields outer scope `[A, D]` and the single sub-group `[SubHeader1, B, C]`;
and on every item list, `reorganize` computes exactly the specified scanning
rule: a SubHeader opens a new group, a non-sub-header item with indent
strictly greater than the base indent joins the open group, and an item at
the base indent or with no open group goes to the outer scope. -/
theorem C3_reorganize_grouping :
    (reorganize [exItem "File" 0 "A", exItem "SubHeader" 0 "SubHeader1",
        exItem "File" 1 "B", exItem "File" 1 "C", exItem "File" 0 "D"] =
      ([exItem "File" 0 "A", exItem "File" 0 "D"],
        [[exItem "SubHeader" 0 "SubHeader1", exItem "File" 1 "B",
          exItem "File" 1 "C"]])) ∧
    ∀ items : List Item, reorganize items = reorganizeSpec items := by
  refine ⟨by decide, ?_⟩
  intro items
  cases items with
  | nil => rfl
  | cons first rest =>
    show (first :: rest).foldl
        (reorganizeStep ((first :: rest).foldl (fun m it => min m it.indent)
          first.indent)) ([], []) = _
    have h := reorganize_fold_eq_spec
      ((first :: rest).foldl (fun m it => min m it.indent) first.indent)
      (first :: rest)
      (foldlMin_le (first :: rest) first.indent).1
      [] [] none (fun _ => rfl)
    simpa [reorganize, reorganizeSpec, optGroup] using h

/-! ### URL mirroring (CanvasSync/utilities/url_utilities.py) -/

/-- Outcome of a `requests` call made by `download_url_content`: `failure`
covers any raised exception (and, for the GET, a non-2xx status rejected by
`raise_for_status`); `success` carries the response body and the parsed
`Last-Modified` header, when present. -/
inductive HttpResult where
  | failure
  | success (content : List Nat) (lastModified : Option Int)
deriving DecidableEq, Repr

/-- The environment `download_url_content` runs in: whether the domain of the URL
is blacklisted, the content (if any) of the local file at the computed mirror
path together with its modification time, and the outcomes of the HEAD and
GET requests.  The filename/mime-type computation of the source only selects
which path is inspected, so the path itself is left implicit here. -/
structure UrlFetchEnv where
  blacklisted : Bool
  localContent : Option (List Nat)
  localMtime : Int
  headResult : HttpResult
  getResult : HttpResult
deriving DecidableEq, Repr

/-- What `download_url_content` did: the bytes written to the mirror path (if
any write happened), the timestamp passed to `os.utime` (if applied), and the
returned value — `Except.error ()` models the `UnboundLocalError` raised at
the final `return file_was_changed` when that variable was never assigned. -/
structure UrlFetchOutcome where
  written : Option (List Nat)
  mtimeSet : Option Int
  result : Except Unit Bool
deriving Repr

/-- The part of `download_url_content` from the GET request onward.  The
float comparison `len(new) / max(1, len(old)) > 0.5` of the source is
modelled exactly as the rational inequality `2 * len(new) > max 1 len(old)`. -/
def downloadPhase (env : UrlFetchEnv) : UrlFetchOutcome :=
  match env.getResult with
  | .failure => ⟨none, none, .ok false⟩
  | .success content lm =>
    match env.localContent with
    | some old_file_data =>
      let file_was_changed := old_file_data ≠ content
      if file_was_changed ∧ 2 * content.length > max 1 old_file_data.length
      then ⟨some content, lm, .ok file_was_changed⟩
      else ⟨none, lm, .ok file_was_changed⟩
    | none => ⟨some content, lm, .error ()⟩

/-- Shallow embedding of `download_url_content`: blacklisted URLs are refused
outright; when the local file exists, a HEAD request is made and the download
is skipped when it fails or reports a `Last-Modified` not newer than the
local mtime; otherwise the GET phase runs. -/
def download_url_content (env : UrlFetchEnv) : UrlFetchOutcome :=
  if env.blacklisted then ⟨none, none, .ok false⟩
  else
    match env.localContent with
    | some _ =>
      match env.headResult with
      | .failure => ⟨none, none, .ok false⟩
      | .success _ lm =>
        match lm with
        | some remote_last_modified =>
          if remote_last_modified ≤ env.localMtime then ⟨none, none, .ok false⟩
          else downloadPhase env
        | none => downloadPhase env
    | none => downloadPhase env

/-- C4: when a local file exists at the mirror path, the HEAD check lets the
download proceed, the GET succeeds and the fetched content differs from the
existing bytes, the file is overwritten exactly when the new byte length is
strictly more than half the old byte length. -/
theorem C4_shrink_guard (env : UrlFetchEnv) (old content : List Nat)
    (hc : List Nat) (hlm glm : Option Int)
    (hbl : env.blacklisted = false)
    (hloc : env.localContent = some old)
    (hhead : env.headResult = .success hc hlm)
    (hfresh : ∀ t, hlm = some t → env.localMtime < t)
    (hget : env.getResult = .success content glm)
    (hdiff : old ≠ content) :
    ((download_url_content env).written = some content ↔
      2 * content.length > old.length) ∧
    (2 * content.length ≤ old.length →
      (download_url_content env).written = none) := by
  have hmax : (2 * content.length > max 1 old.length) ↔
      2 * content.length > old.length := by
    rcases Nat.eq_zero_or_pos old.length with h0 | hpos
    · have hcne : content.length ≠ 0 := by
        intro hc0
        exact hdiff (by
          have := List.length_eq_zero.mp h0
          have := List.length_eq_zero.mp hc0
          simp_all)
      omega
    · omega
  have hphase : downloadPhase env =
      (if old ≠ content ∧ 2 * content.length > max 1 old.length
        then ⟨some content, glm, .ok (old ≠ content)⟩
        else ⟨none, glm, .ok (old ≠ content)⟩) := by
    simp [downloadPhase, hget, hloc]
  have hrun : download_url_content env = downloadPhase env := by
    rw [download_url_content, if_neg (by simp [hbl]), hloc, hhead]
    cases hlm with
    | none => rfl
    | some t =>
      have := hfresh t rfl
      simp only []
      rw [if_neg (by omega)]
  rw [hrun, hphase]
  constructor
  · by_cases hgt : 2 * content.length > max 1 old.length
    · rw [if_pos ⟨hdiff, hgt⟩]
      simpa using hmax.mp hgt
    · rw [if_neg (by tauto)]
      simp only []
      constructor
      · intro h
        exact absurd h (by simp)
      · intro h
        exact absurd (hmax.mpr h) hgt
  · intro hle
    rw [if_neg (by omega)]

/-- C4 witness: a concrete run in which the new content is longer than half
the old content and is therefore written. -/
theorem C4_shrink_guard_witness :
    ((download_url_content
        ⟨false, some [7, 7, 7], 0, .success [] none, .success [1, 2] none⟩
      ).written = some [1, 2] ↔ 2 * 2 > 3) ∧
    (2 * 2 ≤ 3 →
      (download_url_content
        ⟨false, some [7, 7, 7], 0, .success [] none, .success [1, 2] none⟩
      ).written = none) :=
  C4_shrink_guard ⟨false, some [7, 7, 7], 0, .success [] none,
      .success [1, 2] none⟩ [7, 7, 7] [1, 2] [] none none
    rfl rfl rfl (fun t h => by simp at h) rfl (by decide)

/-- C9: for a non-blacklisted URL with no file at the mirror path and a
successful GET, `download_url_content` writes the downloaded content (and
applies `os.utime` when a `Last-Modified` header is present) but then raises
`UnboundLocalError` at `return file_was_changed` instead of returning a
boolean, because that variable is only assigned in the branch where a local
file already existed. -/
theorem C9_unbound_local (env : UrlFetchEnv) (content : List Nat)
    (glm : Option Int)
    (hbl : env.blacklisted = false)
    (hloc : env.localContent = none)
    (hget : env.getResult = .success content glm) :
    download_url_content env = ⟨some content, glm, .error ()⟩ := by
  rw [download_url_content, if_neg (by simp [hbl]), hloc]
  simp [downloadPhase, hget, hloc]

/-- C9 witness: a concrete fresh-download run ending in the unbound-local
error after the payload was written. -/
theorem C9_unbound_local_witness :
    download_url_content ⟨false, none, 0, .failure, .success [5] (some 3)⟩ =
      ⟨some [5], some 3, .error ()⟩ :=
  C9_unbound_local ⟨false, none, 0, .failure, .success [5] (some 3)⟩ [5]
    (some 3) rfl rfl rfl

/-! ### URL shortcuts (CanvasSync/utilities/url_utilities.py) -/

/-- The three branches of the `sys.platform` dispatch in `make_url_shortcut`:
`darwin`, anything containing `"linux"`, and everything else (Windows). -/
inductive Platform where
  | darwin
  | linux
  | other
deriving DecidableEq, Repr

/-- The characters after the last slash of a URL, i.e.
`os.path.split(url)[-1]` for a forward-slash URL. -/
def afterLastSlash (url : String) : String :=
  String.mk ((url.toList.reverse.takeWhile (fun c => c ≠ '/')).reverse)

/-- The shortcut file body built by the platform-specific helper
(`_make_mac_url_shortcut`, `_make_linux_url_shortcut`,
`_make_windows_url_shortcut`), with the `%s` holes filled in. -/
def shortcut_content (platform : Platform) (url : String) : String :=
  match platform with
  | .darwin =>
    "<?xml version=\"1.0\" encoding=\"UTF-8\"?>\n" ++
    "<!DOCTYPE plist PUBLIC \"-//Apple//DTD PLIST 1.0//EN\" " ++
    "\"http://www.apple.com/DTDs/PropertyList-1.0.dtd\">\n" ++
    "<plist version=\"1.0\">\n<dict>\n<key>URL</key>\n<string>" ++ url ++
    "</string>\n</dict>\n</plist>"
  | .linux =>
    "[Desktop Entry]\nEncoding=UTF-8\nName=" ++ afterLastSlash url ++
    "\nType=Link\nURL=" ++ url ++ "\nIcon=text-html"
  | .other =>
    "[InternetShortcut]\nURL=" ++ url

/-- The shortcut file path: the sync path plus the platform extension. -/
def shortcut_filepath (platform : Platform) (path : String) : String :=
  match platform with
  | .darwin => path ++ ".webloc"
  | .linux => path ++ ".desktop"
  | .other => path ++ ".url"

/-- Shallow embedding of `make_url_shortcut`.  `existing` is the content of
the file at `shortcut_filepath platform path` before the call (`none` when
absent).  Returns the boolean result of the function, whether a write was
performed, and the file content afterwards. -/
def make_url_shortcut (platform : Platform) (url : String)
    (existing : Option String) : Bool × Bool × Option String :=
  let new_content := shortcut_content platform url
  match existing with
  | some old_content =>
    if new_content = old_content then (false, false, some old_content)
    else (true, true, some new_content)
  | none => (true, true, some new_content)

/-- C7: starting from a state where the shortcut file is absent (or holds
different bytes), the first call writes the file and returns `True`; the
second call performs no write and returns `False`; after each call the file
holds exactly the generated shortcut bytes. -/
theorem C7_shortcut_idempotent (platform : Platform) (url : String)
    (existing : Option String)
    (hfresh : existing ≠ some (shortcut_content platform url)) :
    make_url_shortcut platform url existing =
      (true, true, some (shortcut_content platform url)) ∧
    make_url_shortcut platform url
        (make_url_shortcut platform url existing).2.2 =
      (false, false, some (shortcut_content platform url)) := by
  have h1 : make_url_shortcut platform url existing =
      (true, true, some (shortcut_content platform url)) := by
    match existing with
    | none => rfl
    | some old =>
      have hne : ¬ shortcut_content platform url = old := by
        intro h
        exact hfresh (by rw [h])
      simp [make_url_shortcut, hne]
  refine ⟨h1, ?_⟩
  rw [h1]
  simp [make_url_shortcut]

/-- C7 witness: a concrete Linux-platform run starting with no shortcut
file. -/
theorem C7_shortcut_idempotent_witness :
    make_url_shortcut .linux "http://example.org/a.pdf" none =
      (true, true, some (shortcut_content .linux "http://example.org/a.pdf")) ∧
    make_url_shortcut .linux "http://example.org/a.pdf"
        (make_url_shortcut .linux "http://example.org/a.pdf" none).2.2 =
      (false, false,
        some (shortcut_content .linux "http://example.org/a.pdf")) :=
  C7_shortcut_idempotent .linux "http://example.org/a.pdf" none (by simp)

/-! ### File leaves (CanvasSync/entities/file.py) -/

/-- The fields of a `File` node read during `download`/`sync`: the lock flag,
the parsed `modified_at` server timestamp (an integer timestamp standing for
the `datetime` value), and the payload `api.download_file_payload` returns. -/
structure CanvasFileNode where
  locked : Bool
  modified_at : Int
  payload : List Nat
deriving DecidableEq, Repr

/-- What one `File.sync`/`File.download` run did: how many payload downloads
were requested, the bytes written to the sync path (if any), the
`(atime, mtime)` pair passed to `os.utime` (if applied), the boolean returned
by `download`, and the queued status lines. -/
structure FileSyncOutcome where
  downloadCalls : Nat
  written : Option (List Nat)
  timesSet : Option (Int × Int)
  retval : Bool
  statuses : List String
deriving DecidableEq, Repr

/-- Shallow embedding of `File.download`: skip when a local file exists whose
mtime is at least the server timestamp, otherwise download the payload once,
write it, and stamp the file with the server time.  (The
`KeyboardInterrupt` rollback branch is interruption-only and not modelled.) -/
def fileDownload (f : CanvasFileNode) (localExists : Bool)
    (localMtime : Int) : FileSyncOutcome :=
  if localExists ∧ f.modified_at ≤ localMtime then
    ⟨0, none, none, false, []⟩
  else
    ⟨1, some f.payload, some (f.modified_at, f.modified_at), true,
      ["DOWNLOADING"]⟩

/-- Shallow embedding of `File.sync`: locked files only report `LOCKED`;
unlocked files run `download` and then report `SYNCED`. -/
def fileSync (f : CanvasFileNode) (localExists : Bool)
    (localMtime : Int) : FileSyncOutcome :=
  if f.locked then
    ⟨0, none, none, false, ["LOCKED"]⟩
  else
    let r := fileDownload f localExists localMtime
    ⟨r.downloadCalls, r.written, r.timesSet, r.retval,
      r.statuses ++ ["SYNCED"]⟩

/-- C2: for an unlocked `File` node, when a local file exists whose mtime is
at least the server `modified_at`, syncing performs no payload download and
writes nothing; otherwise it performs exactly one download, writes the
payload, and sets the local atime/mtime to the server timestamp. -/
theorem C2_file_mtime_skip (f : CanvasFileNode) (localExists : Bool)
    (localMtime : Int) (hunlocked : f.locked = false) :
    (localExists = true ∧ localMtime ≥ f.modified_at →
      (fileSync f localExists localMtime).downloadCalls = 0 ∧
      (fileSync f localExists localMtime).written = none) ∧
    (¬ (localExists = true ∧ localMtime ≥ f.modified_at) →
      (fileSync f localExists localMtime).downloadCalls = 1 ∧
      (fileSync f localExists localMtime).written = some f.payload ∧
      (fileSync f localExists localMtime).timesSet =
        some (f.modified_at, f.modified_at)) := by
  have hs : fileSync f localExists localMtime =
      ⟨(fileDownload f localExists localMtime).downloadCalls,
        (fileDownload f localExists localMtime).written,
        (fileDownload f localExists localMtime).timesSet,
        (fileDownload f localExists localMtime).retval,
        (fileDownload f localExists localMtime).statuses ++ ["SYNCED"]⟩ := by
    simp [fileSync, hunlocked]
  constructor
  · rintro ⟨hex, hmt⟩
    rw [hs]
    simp [fileDownload, hex, ge_iff_le.mp hmt]
  · intro hnot
    rw [hs]
    have : ¬ (localExists = true ∧ f.modified_at ≤ localMtime) := by
      intro ⟨h1, h2⟩
      exact hnot ⟨h1, h2⟩
    simp only [fileDownload, if_neg this]
    exact ⟨trivial, trivial, trivial⟩

/-- C2 witness: a concrete unlocked file with a stale local copy (local mtime
3 < server time 5), downloaded exactly once and restamped to time 5. -/
theorem C2_file_mtime_skip_witness :
    (true = true ∧ (3 : Int) ≥ (5 : Int) →
      (fileSync ⟨false, 5, [9, 9]⟩ true 3).downloadCalls = 0 ∧
      (fileSync ⟨false, 5, [9, 9]⟩ true 3).written = none) ∧
    (¬ (true = true ∧ (3 : Int) ≥ (5 : Int)) →
      (fileSync ⟨false, 5, [9, 9]⟩ true 3).downloadCalls = 1 ∧
      (fileSync ⟨false, 5, [9, 9]⟩ true 3).written = some [9, 9] ∧
      (fileSync ⟨false, 5, [9, 9]⟩ true 3).timesSet = some (5, 5)) :=
  C2_file_mtime_skip ⟨false, 5, [9, 9]⟩ true 3 rfl

/-! ### Linked-file leaves (CanvasSync/entities/linked_file.py) -/

/-- Outcome of the `requests.get` call in `LinkedFile.download`: either a
raised `RequestException` (caught by the function) or a response with a
status code and body. -/
inductive RequestOutcome where
  | exception
  | response (status : Nat) (content : List Nat)
deriving DecidableEq, Repr

/-- The value `LinkedFile.download` returns: `False`, `True`, or `-1`. -/
inductive LinkedRet where
  | boolRet (b : Bool)
  | minusOne
deriving DecidableEq, Repr

/-- What a `LinkedFile.download` run did: status lines queued, whether the
HTTP request was made, the bytes written (if any), and the return value.
The function is total: every failure path returns `-1` instead of letting an
exception escape. -/
structure LinkedDownloadOutcome where
  statuses : List String
  requested : Bool
  written : Option (List Nat)
  retval : LinkedRet
deriving DecidableEq, Repr

/-- Shallow embedding of `LinkedFile.download`. -/
def linkedFileDownload (pathExists : Bool) (resp : RequestOutcome) :
    LinkedDownloadOutcome :=
  if pathExists then
    ⟨[], false, none, .boolRet false⟩
  else
    match resp with
    | .exception => ⟨["DOWNLOADED", "FAILED"], true, none, .minusOne⟩
    | .response status content =>
      if status ≠ 200 then ⟨["DOWNLOADED", "FAILED"], true, none, .minusOne⟩
      else ⟨["DOWNLOADED"], true, some content, .boolRet true⟩

/-- Shallow embedding of `LinkedFile.sync`: run `download`, then report
`SYNCED` unless it returned `-1`.  Like `download` it is a total function, so
a failed linked-file download never propagates an exception to the parent. -/
def linkedFileSync (pathExists : Bool) (resp : RequestOutcome) :
    LinkedDownloadOutcome :=
  let r := linkedFileDownload pathExists resp
  ⟨r.statuses ++ (if r.retval = .minusOne then [] else ["SYNCED"]),
    r.requested, r.written, r.retval⟩

/-- C8: when the sync path is free and the request raises or returns a
non-200 status, `LinkedFile.download` reports `FAILED`, returns `-1`, and
writes nothing; the surrounding `sync` still runs to completion (it is a
total function) and merely skips the `SYNCED` line, so siblings and the
parental join are unaffected. -/
theorem C8_linked_file_failure (pathExists : Bool) (resp : RequestOutcome)
    (hfree : pathExists = false)
    (hfail : resp = .exception ∨
      ∃ s c, resp = .response s c ∧ s ≠ 200) :
    (linkedFileDownload pathExists resp).retval = .minusOne ∧
    "FAILED" ∈ (linkedFileDownload pathExists resp).statuses ∧
    (linkedFileDownload pathExists resp).written = none ∧
    (linkedFileSync pathExists resp).statuses = ["DOWNLOADED", "FAILED"] := by
  subst hfree
  rcases hfail with h | ⟨s, c, h, hs⟩
  · subst h
    refine ⟨rfl, by simp [linkedFileDownload], rfl, rfl⟩
  · subst h
    have hd : linkedFileDownload false (.response s c) =
        ⟨["DOWNLOADED", "FAILED"], true, none, .minusOne⟩ := by
      simp [linkedFileDownload, hs]
    refine ⟨by rw [hd], by rw [hd]; simp, by rw [hd], ?_⟩
    simp [linkedFileSync, hd]

/-- C8 witness: a concrete 404 response on a fresh path. -/
theorem C8_linked_file_failure_witness :
    (linkedFileDownload false (.response 404 [1])).retval = .minusOne ∧
    "FAILED" ∈ (linkedFileDownload false (.response 404 [1])).statuses ∧
    (linkedFileDownload false (.response 404 [1])).written = none ∧
    (linkedFileSync false (.response 404 [1])).statuses =
      ["DOWNLOADED", "FAILED"] :=
  C8_linked_file_failure false (.response 404 [1]) rfl
    (Or.inr ⟨404, [1], rfl, by decide⟩)

/-- C10: when a file already exists at the sync path, `LinkedFile.download`
returns `False` immediately: no HTTP request is made and nothing is written,
whatever the remote would have answered. -/
theorem C10_linked_file_exists_skip (pathExists : Bool)
    (resp : RequestOutcome) (hexists : pathExists = true) :
    linkedFileDownload pathExists resp = ⟨[], false, none, .boolRet false⟩ := by
  subst hexists
  rfl

/-- C10 witness: a concrete run with an existing file; even a successful 200
response would not be requested or written. -/
theorem C10_linked_file_exists_skip_witness :
    linkedFileDownload true (.response 200 [1, 2]) =
      ⟨[], false, none, .boolRet false⟩ :=
  C10_linked_file_exists_skip true (.response 200 [1, 2]) rfl

/-! ### HTML leaves (CanvasSync/entities/assignment.py and page.py) -/

/-- The HTML document `Assignment.make_html` writes: title heading, live-page
link, and the rich-text description (with the `or "No description"`
fallback covering a missing and an empty description alike).  Note that no
metadata table is appended here, unlike the Page document. -/
def assignmentHtmlContent (name url : String) (description : Option String) :
    String :=
  "<h1><strong>" ++ name ++ "</strong></h1>" ++
  "<big><a href=\"" ++ url ++
  "\">Click here to open the live page in Canvas</a></big>" ++
  "<hr>" ++
  (match description with
    | some d => if d = "" then "No description" else d
    | none => "No description")

/-- Shallow embedding of `Assignment.make_html`.  `existing` is the content
of the file at `sync_path + name + ".html"` before the call; the returned
value is the content written, `none` when nothing was written.  The source
only checks `os.path.exists` — it never reads or compares an existing file. -/
def assignmentMakeHtml (existing : Option String) (name url : String)
    (description : Option String) : Option String :=
  match existing with
  | some _ => none
  | none => some (assignmentHtmlContent name url description)

/-- The HTML document `Page.download` generates: title heading, live-page
link, rich-text body (with a separator after a non-empty body), and the
`json2html` rendering of the remaining metadata, abstracted here as the
`metadataTable` argument since `json2html` is an external library. -/
def pageHtmlContent (name html_url : String) (body : Option String)
    (metadataTable : String) : String :=
  let bodyStr := match body with | some b => b | none => ""
  "<h1><strong>" ++ name ++ "</strong></h1>" ++
  "<big><a href=\"" ++ html_url ++
  "\">Click here to open the live page in Canvas</a></big>" ++
  "<hr>" ++ bodyStr ++ (if bodyStr = "" then "" else "<hr>") ++
  metadataTable

/-- Shallow embedding of the write decision of `Page.download`: the generated
document is compared against the existing file content (`none` when the file
is absent) and written only when they differ.  The first component is whether
a write (and the `DOWNLOADING` status) happened; the second is the content
written. -/
def pageDownloadWrite (existing : Option String) (name html_url : String)
    (body : Option String) (metadataTable : String) : Bool × Option String :=
  let new_content := pageHtmlContent name html_url body metadataTable
  if existing = some new_content then (false, none)
  else (true, some new_content)

/-- C5 counterexample: an `Assignment` whose HTML file already exists with
content different from the generated document is not rewritten, so the
"written if and only if the generated bytes differ" claim fails for
Assignment leaves. -/
theorem C5_counterexample :
    assignmentMakeHtml (some "stale") "A1" "http://c/a/1" none = none ∧
    "stale" ≠ assignmentHtmlContent "A1" "http://c/a/1" none := by
  constructor
  · rfl
  · intro h
    have : ("stale").length =
        (assignmentHtmlContent "A1" "http://c/a/1" none).length := by rw [h]
    simp [assignmentHtmlContent, String.length] at this

/-- C5 as amended: Page leaves compare the generated document against the
existing file and write exactly when they differ (always when no file
exists); Assignment leaves write their document only when no file exists at
the target path, and never compare against or overwrite an existing file. -/
theorem C5_html_write_policy :
    (∀ (existing : Option String) (name html_url : String)
        (body : Option String) (metadataTable : String),
      ((pageDownloadWrite existing name html_url body metadataTable).1 = true
        ↔ existing ≠ some (pageHtmlContent name html_url body metadataTable))
      ∧ (pageDownloadWrite existing name html_url body metadataTable).2 =
        (if existing = some (pageHtmlContent name html_url body metadataTable)
          then none
          else some (pageHtmlContent name html_url body metadataTable))) ∧
    (∀ (existing : Option String) (name url : String)
        (description : Option String),
      assignmentMakeHtml existing name url description =
        (match existing with
          | some _ => none
          | none => some (assignmentHtmlContent name url description))) := by
  constructor
  · intro existing name html_url body metadataTable
    by_cases h : existing =
        some (pageHtmlContent name html_url body metadataTable)
    · simp [pageDownloadWrite, h]
    · simp [pageDownloadWrite, h]
  · intro existing name url description
    rfl

/-! ### Name sanitization and sync paths (helpers.get_corrected_name and
the entity constructors) -/

/-- Boolean test that `pat` is an initial segment of `s` (the check
`str.replace` performs at each position; also used for subtree tests on
positions). -/
def leadWith {α : Type} [DecidableEq α] : List α → List α → Bool
  | [], _ => true
  | _ :: _, [] => false
  | a :: as, b :: bs => a = b && leadWith as bs

/-- Python `str.replace`: left-to-right, non-overlapping replacement of
every occurrence of `pat` by `repl`.  (For the degenerate empty pattern the
input is returned unchanged; the sanitization table only holds non-empty
patterns.) -/
def replaceAll (pat repl : List Char) : List Char → List Char
  | [] => []
  | c :: rest =>
    if h : pat ≠ [] ∧ leadWith pat (c :: rest) then
      repl ++ replaceAll pat repl ((c :: rest).drop pat.length)
    else
      c :: replaceAll pat repl rest
termination_by l => l.length
decreasing_by
  · simp only [List.length_drop, List.length_cons]
    have : 1 ≤ pat.length := by
      cases pat with
      | nil => exact absurd rfl h.1
      | cons p ps => simp
    omega
  · simp

/-- Python `str.strip(chars)`: remove the given characters from both ends. -/
def stripChars (cs : List Char) (s : List Char) : List Char :=
  ((s.dropWhile (fun c => cs.contains c)).reverse.dropWhile
    (fun c => cs.contains c)).reverse

/-- Python `os.path.splitext` for a bare file name (no directory
separators): split off the suffix starting at the last dot, unless every
character before that dot is itself a dot. -/
def splitext (l : List Char) : List Char × List Char :=
  match l.reverse.findIdx? (fun c => c = '.') with
  | none => (l, [])
  | some r =>
    let i := l.length - 1 - r
    if (l.take i).all (fun c => c = '.') then (l, [])
    else (l.take i, l.drop i)

/-- Python list slicing `l[:k]`, including the negative-index convention. -/
def pyTake (l : List Char) (k : Int) : List Char :=
  l.take (if k < 0 then ((l.length : Int) + k).toNat else k.toNat)

/-- Shallow embedding of `helpers.get_corrected_name`: strip leading and
trailing spaces and dots, apply the `CLEAN_CHARS` replacement table (passed
in as `cleanChars`, since `CanvasSync/utilities/__init__.py` defining it is
not part of the sources), and truncate to 255 characters preserving the
extension. -/
def get_corrected_name (cleanChars : List (List Char × List Char))
    (name : List Char) : List Char :=
  let name := stripChars [' ', '.'] name
  let name := cleanChars.foldl (fun n pr => replaceAll pr.1 pr.2 n) name
  if name.length > 255 then
    let (base, ext) := splitext name
    pyTake base (255 - (ext.length : Int)) ++ ext
  else name

/-- POSIX `os.path.join` for two components. -/
def osPathJoin (a b : List Char) : List Char :=
  if leadWith ['/'] b then b
  else if a = [] ∨ a.getLastD ' ' = '/' then a ++ b
  else a ++ '/' :: b

/-- Sync path of a `File` node (file.py line 43):
`os.path.join(parent.get_path(), get_corrected_name(display_name))`. -/
def filePath (cleanChars : List (List Char × List Char))
    (parentPath displayName : List Char) : List Char :=
  osPathJoin parentPath (get_corrected_name cleanChars displayName)

/-- Sync path of a `Folder` node (folder.py line 41). -/
def folderPath (cleanChars : List (List Char × List Char))
    (parentPath name : List Char) : List Char :=
  osPathJoin parentPath (get_corrected_name cleanChars name)

/-- Sync path of an `ExternalUrl` node (external_url.py line 45). -/
def externalUrlPath (cleanChars : List (List Char × List Char))
    (parentPath title : List Char) : List Char :=
  osPathJoin parentPath (get_corrected_name cleanChars title)

/-- Sync path of a `Module` (and `SubHeader`) node (module.py line 45):
the joined component is `"%s - %s" % (module_position, module_name)`, not the
bare sanitized name. -/
def modulePath (cleanChars : List (List Char × List Char))
    (parentPath : List Char) (position : Nat) (name : List Char) : List Char :=
  osPathJoin parentPath
    ((toString position).toList ++ (' ' :: '-' :: ' ' :: []) ++
      get_corrected_name cleanChars name)

/-- Sync path of an `Assignment` node (assignment.py line 47): plain string
concatenation `parent.get_path() + assignment_name`, with no separator. -/
def assignmentPath (cleanChars : List (List Char × List Char))
    (parentPath name : List Char) : List Char :=
  parentPath ++ get_corrected_name cleanChars name

/-- Sync path of a `Page` node (page.py line 50): the parental path itself;
the page name only appears later in the `<name>.html` file placed there. -/
def pagePath (parentPath : List Char) : List Char :=
  parentPath

/-- C6 counterexample: an `Assignment` named "A1" under parent path "/c"
gets sync path "/cA1" — the parent path concatenated with the sanitized
name, not joined with it as a path component — so the claimed invariant
fails. -/
theorem C6_counterexample :
    assignmentPath [] "/c".toList "A1".toList = "/cA1".toList ∧
    assignmentPath [] "/c".toList "A1".toList ≠
      osPathJoin "/c".toList (get_corrected_name [] "A1".toList) := by
  constructor
  · decide
  · decide

/-- C6 as amended: `File`, `Folder` and `ExternalUrl` nodes follow the
`parent / sanitize(name)` rule; a `Module` (or `SubHeader`) joins
`"<position> - <sanitized name>"` instead; an `Assignment` concatenates the
sanitized name onto the parent path with no separator; a `Page` reuses the
parent path unchanged.  Stated for parent paths that are non-empty and do
not end in a slash, and joined components that do not start with a slash. -/
theorem C6_sync_paths (cleanChars : List (List Char × List Char))
    (parentPath name : List Char) (position : Nat)
    (hne : parentPath ≠ [])
    (hslash : parentPath.getLastD ' ' ≠ '/')
    (hcomp : leadWith ['/'] (get_corrected_name cleanChars name) = false)
    (hmod : leadWith ['/'] ((toString position).toList ++
      (' ' :: '-' :: ' ' :: []) ++ get_corrected_name cleanChars name)
      = false) :
    filePath cleanChars parentPath name =
      parentPath ++ '/' :: get_corrected_name cleanChars name ∧
    folderPath cleanChars parentPath name =
      parentPath ++ '/' :: get_corrected_name cleanChars name ∧
    externalUrlPath cleanChars parentPath name =
      parentPath ++ '/' :: get_corrected_name cleanChars name ∧
    modulePath cleanChars parentPath position name =
      parentPath ++ '/' :: ((toString position).toList ++
        (' ' :: '-' :: ' ' :: []) ++ get_corrected_name cleanChars name) ∧
    assignmentPath cleanChars parentPath name =
      parentPath ++ get_corrected_name cleanChars name ∧
    pagePath parentPath = parentPath := by
  have hjoin : ∀ b : List Char, leadWith ['/'] b = false →
      osPathJoin parentPath b = parentPath ++ '/' :: b := by
    intro b hb
    rw [osPathJoin, if_neg (by simp [hb]),
      if_neg (fun hor => Or.elim hor hne hslash)]
  exact ⟨hjoin _ hcomp, hjoin _ hcomp, hjoin _ hcomp, hjoin _ hmod, rfl, rfl⟩

/-- C6 witness: concrete paths for every kind under parent "/c". -/
theorem C6_sync_paths_witness :
    filePath [] "/c".toList "F".toList =
      "/c".toList ++ '/' :: get_corrected_name [] "F".toList ∧
    folderPath [] "/c".toList "F".toList =
      "/c".toList ++ '/' :: get_corrected_name [] "F".toList ∧
    externalUrlPath [] "/c".toList "F".toList =
      "/c".toList ++ '/' :: get_corrected_name [] "F".toList ∧
    modulePath [] "/c".toList 1 "F".toList =
      "/c".toList ++ '/' :: ((toString 1).toList ++
        (' ' :: '-' :: ' ' :: []) ++ get_corrected_name [] "F".toList) ∧
    assignmentPath [] "/c".toList "F".toList =
      "/c".toList ++ get_corrected_name [] "F".toList ∧
    pagePath "/c".toList = "/c".toList :=
  C6_sync_paths [] "/c".toList "F".toList 1 (by decide) (by decide)
    (by decide) (by decide)

/-! ### Print ordering of `CanvasEntity.sync`
(CanvasSync/entities/canvas_entity.py)

Each node buffers its status lines in `print_queue` and flushes them exactly
once.  The threaded `sync` dispatches all children, then busy-waits until
(a) its parent `has_printed` — set when the parent flushed — and (b) the
parental `child_to_print` counter equals the sibling index of this node; the
counter is incremented by a child only at the very end of its own `sync`,
after `executor.shutdown()` has joined the whole child subtree (whose
nodes have each flushed before returning).  A tree node is identified below
by its position: the list of sibling indices on the path from the root.  An
execution of the engine determines the real-time order in which nodes
flushed, a list of positions; the two wait conditions of the code map to
the two ordering constraints of `ValidSchedule`.  The claim is that these
constraints force the unique preorder (declared-order) listing, whatever the
thread interleaving. -/

/-- A tree of `CanvasEntity` nodes: only the parent/children shape matters
for print ordering. -/
inductive EntityTree where
  | node (children : List EntityTree)

mutual

/-- Does a position (list of sibling indices) denote a node of the tree? -/
def isPos : EntityTree → List Nat → Bool
  | _, [] => true
  | .node cs, i :: p => isPosAux cs i p

/-- Helper: does child index `i` exist in `cs` and continue with `p`? -/
def isPosAux : List EntityTree → Nat → List Nat → Bool
  | [], _, _ => false
  | c :: _, 0, p => isPos c p
  | _ :: cs, i + 1, p => isPosAux cs i p

end

mutual

/-- All positions of the tree in preorder: a node first, then the full
block of each child in declared order — the status-line order the
specification promises. -/
def positionsList : EntityTree → List (List Nat)
  | .node cs => [] :: positionsAux 0 cs

/-- Preorder position blocks of the children `cs`, the first child having
sibling index `k`. -/
def positionsAux : Nat → List EntityTree → List (List Nat)
  | _, [] => []
  | k, c :: cs =>
    (positionsList c).map (fun p => k :: p) ++ positionsAux (k + 1) cs

end

/-- Strict lexicographic order on positions, a proper initial segment
counting as smaller: exactly preorder precedence. -/
def lexLt : List Nat → List Nat → Bool
  | _, [] => false
  | [], _ :: _ => true
  | a :: as, b :: bs =>
    if a < b then true
    else if a = b then lexLt as bs
    else false

lemma lexLt_irrefl (a : List Nat) : lexLt a a = false := by
  induction a with
  | nil => rfl
  | cons x xs ih => simp [lexLt, ih]

lemma lexLt_asymm (a b : List Nat) (h1 : lexLt a b = true)
    (h2 : lexLt b a = true) : False := by
  induction a generalizing b with
  | nil => cases b <;> simp [lexLt] at h1 h2
  | cons x xs ih =>
    cases b with
    | nil => simp [lexLt] at h1
    | cons y ys =>
      by_cases hxy : x < y
      · have : ¬ y < x := by omega
        have : ¬ y = x := by omega
        simp [lexLt, this, ‹¬ y < x›] at h2
      · by_cases heq : x = y
        · subst heq
          simp [lexLt, lexLt_irrefl] at h1 h2
          exact ih ys h1 h2
        · simp [lexLt, hxy, heq] at h1

lemma lexLt_total (a b : List Nat) (hne : a ≠ b) :
    lexLt a b = true ∨ lexLt b a = true := by
  induction a generalizing b with
  | nil =>
    cases b with
    | nil => exact absurd rfl hne
    | cons y ys => left; rfl
  | cons x xs ih =>
    cases b with
    | nil => right; rfl
    | cons y ys =>
      by_cases hxy : x = y
      · subst hxy
        have hne' : xs ≠ ys := by
          intro h; exact hne (by rw [h])
        rcases ih ys hne' with h | h
        · left; simp [lexLt, lexLt_irrefl, h]
        · right; simp [lexLt, lexLt_irrefl, h]
      · rcases Nat.lt_or_ge x y with h | h
        · left; simp [lexLt, h]
        · have hyx : y < x := by omega
          right; simp [lexLt, hyx]

lemma lexLt_cons_same (k : Nat) (a b : List Nat) :
    lexLt (k :: a) (k :: b) = lexLt a b := by
  simp [lexLt]

/-- Preorder precedence decomposes: either the first position is a proper
initial segment of the second, or they diverge at some index with the first
smaller. -/
lemma lexLt_cases (a b : List Nat) (h : lexLt a b = true) :
    (∃ rest, rest ≠ [] ∧ b = a ++ rest) ∨
    (∃ r i j a2 b2, i < j ∧ a = r ++ i :: a2 ∧ b = r ++ j :: b2) := by
  induction a generalizing b with
  | nil =>
    cases b with
    | nil => simp [lexLt] at h
    | cons y ys => exact Or.inl ⟨y :: ys, by simp, by simp⟩
  | cons x xs ih =>
    cases b with
    | nil => simp [lexLt] at h
    | cons y ys =>
      by_cases hxy : x < y
      · exact Or.inr ⟨[], x, y, xs, ys, hxy, by simp, by simp⟩
      · by_cases heq : x = y
        · subst heq
          have h' : lexLt xs ys = true := by
            simpa [lexLt, lexLt_irrefl] using h
          rcases ih ys h' with ⟨rest, hrest, hb⟩ |
            ⟨r, i, j, a2, b2, hij, ha, hb⟩
          · exact Or.inl ⟨rest, hrest, by simp [hb]⟩
          · exact Or.inr ⟨x :: r, i, j, a2, b2, hij, by simp [ha],
              by simp [hb]⟩
        · simp [lexLt, hxy, heq] at h

lemma leadWith_append {α : Type} [DecidableEq α] (p q : List α) :
    leadWith p (p ++ q) = true := by
  induction p with
  | nil => rfl
  | cons x xs ih => simp [leadWith, ih]

lemma leadWith_iff {α : Type} [DecidableEq α] (p w : List α) :
    leadWith p w = true ↔ ∃ rest, w = p ++ rest := by
  constructor
  · intro h
    induction p generalizing w with
    | nil => exact ⟨w, rfl⟩
    | cons x xs ih =>
      cases w with
      | nil => simp [leadWith] at h
      | cons y ys =>
        have hx : x = y ∧ leadWith xs ys = true := by
          simpa [leadWith] using h
        obtain ⟨rest, hrest⟩ := ih ys hx.2
        exact ⟨rest, by simp [hx.1, hrest]⟩
  · rintro ⟨rest, rfl⟩
    exact leadWith_append p rest

lemma isPosAux_eq (cs : List EntityTree) (i : Nat) (p : List Nat) :
    isPosAux cs i p = (match cs.get? i with
      | some c => isPos c p
      | none => false) := by
  induction cs generalizing i with
  | nil => cases i <;> rfl
  | cons c cs ih =>
    cases i with
    | zero => rfl
    | succ i => simpa [isPosAux] using ih i

mutual

theorem mem_positionsList (t : EntityTree) (p : List Nat) :
    p ∈ positionsList t ↔ isPos t p = true := by
  cases t with
  | node cs =>
    cases p with
    | nil => simp [positionsList, isPos]
    | cons i q =>
      rw [positionsList]
      have haux := mem_positionsAux cs 0 (i :: q)
      constructor
      · intro h
        rcases List.mem_cons.mp h with h | h
        · exact absurd h (by simp)
        · obtain ⟨i2, q2, heq, hpos⟩ := (haux.mp h)
          have : i = i2 ∧ q = q2 := by
            constructor <;> [skip; skip] <;>
              injection heq with h1 h2 <;> simp_all
          rw [isPos, this.1, this.2]
          simpa using hpos
      · intro h
        refine List.mem_cons.mpr (Or.inr (haux.mpr ⟨i, q, by simp, ?_⟩))
        simpa [isPos] using h

theorem mem_positionsAux (cs : List EntityTree) (k : Nat) (p : List Nat) :
    p ∈ positionsAux k cs ↔
      ∃ i q, p = (k + i) :: q ∧ isPosAux cs i q = true := by
  cases cs with
  | nil =>
    simp only [positionsAux, List.not_mem_nil, false_iff]
    rintro ⟨i, q, hp, hpos⟩
    simp [isPosAux] at hpos
  | cons c cs =>
    rw [positionsAux]
    have hc := fun q => mem_positionsList c q
    have hcs := fun p => mem_positionsAux cs (k + 1) p
    constructor
    · intro h
      rcases List.mem_append.mp h with h | h
      · obtain ⟨q, hq, rfl⟩ := List.mem_map.mp h
        exact ⟨0, q, by simp, by simpa [isPosAux] using (hc q).mp hq⟩
      · obtain ⟨i, q, rfl, hpos⟩ := (hcs p).mp h
        exact ⟨i + 1, q, by ring_nf, by simpa [isPosAux] using hpos⟩
    · rintro ⟨i, q, rfl, hpos⟩
      cases i with
      | zero =>
        refine List.mem_append.mpr (Or.inl (List.mem_map.mpr ⟨q, ?_, by simp⟩))
        exact (hc q).mpr (by simpa [isPosAux] using hpos)
      | succ i =>
        refine List.mem_append.mpr (Or.inr ((hcs _).mpr ⟨i, q, by ring_nf, ?_⟩))
        simpa [isPosAux] using hpos

end

mutual

theorem pairwise_positionsList (t : EntityTree) :
    (positionsList t).Pairwise (fun a b => lexLt a b = true) := by
  cases t with
  | node cs =>
    rw [positionsList, List.pairwise_cons]
    constructor
    · intro b hb
      obtain ⟨i, q, rfl, -⟩ := (mem_positionsAux cs 0 b).mp hb
      rfl
    · exact pairwise_positionsAux 0 cs

theorem pairwise_positionsAux (k : Nat) (cs : List EntityTree) :
    (positionsAux k cs).Pairwise (fun a b => lexLt a b = true) := by
  cases cs with
  | nil => exact List.Pairwise.nil
  | cons c cs =>
    rw [positionsAux, List.pairwise_append]
    refine ⟨?_, pairwise_positionsAux (k + 1) cs, ?_⟩
    · exact List.Pairwise.map _
        (fun a b h => by rw [lexLt_cons_same]; exact h)
        (pairwise_positionsList c)
    · intro a ha b hb
      obtain ⟨q, -, rfl⟩ := List.mem_map.mp ha
      obtain ⟨i, w, rfl, -⟩ := (mem_positionsAux cs (k + 1) b).mp hb
      have hk : k < k + 1 + i := by omega
      simp [lexLt, hk]

end

lemma isPos_nil (t : EntityTree) : isPos t [] = true := by
  cases t with
  | node cs => rfl

lemma isPos_append_left (t : EntityTree) (p q : List Nat)
    (h : isPos t (p ++ q) = true) : isPos t p = true := by
  induction p generalizing t with
  | nil => exact isPos_nil t
  | cons x xs ih =>
    cases t with
    | node cs =>
      rw [List.cons_append, isPos, isPosAux_eq] at h
      rw [isPos, isPosAux_eq]
      cases hx : cs.get? x with
      | none => rw [hx] at h; exact absurd h (by simp)
      | some c =>
        rw [hx] at h
        exact ih c h

lemma isPos_sibling_le (t : EntityTree) (r : List Nat) (i j : Nat)
    (hij : i ≤ j) (h : isPos t (r ++ [j]) = true) :
    isPos t (r ++ [i]) = true := by
  induction r generalizing t with
  | nil =>
    cases t with
    | node cs =>
      rw [List.nil_append, isPos, isPosAux_eq] at h
      rw [List.nil_append, isPos, isPosAux_eq]
      cases hj : cs.get? j with
      | none => rw [hj] at h; exact absurd h (by simp)
      | some c =>
        obtain ⟨hjl, -⟩ := List.get?_eq_some.mp hj
        have hil : i < cs.length := lt_of_le_of_lt hij hjl
        cases hi : cs.get? i with
        | none =>
          have := List.get?_eq_none.mp hi
          omega
        | some ci => exact isPos_nil ci
  | cons x r ih =>
    cases t with
    | node cs =>
      rw [List.cons_append, isPos, isPosAux_eq] at h
      rw [List.cons_append, isPos, isPosAux_eq]
      cases hx : cs.get? x with
      | none => rw [hx] at h; exact absurd h (by simp)
      | some c =>
        rw [hx] at h
        exact ih c h

/-- Position of the flush of a node in the emitted output sequence `s`. -/
def schedIdx (s : List (List Nat)) (p : List Nat) : Nat :=
  @List.indexOf (List Nat) instBEqOfDecidableEq p s

/-- An output sequence `s` (the real-time order in which nodes flushed their
buffered status lines) is a possible execution of `CanvasEntity.sync` on the
tree `t` when: every node flushes exactly once (`s` is a permutation of the
node positions); a node flushes only after its parent (`parent.has_printed`
is checked before flushing); and a node of sibling index `i + 1` flushes
only after every node in the subtree of sibling `i` (the parental
`child_to_print` counter reaches `i + 1` only when the `sync` of sibling
`i` has
returned, which happens after its whole subtree flushed). -/
def ValidSchedule (t : EntityTree) (s : List (List Nat)) : Prop :=
  s.Perm (positionsList t) ∧
  (∀ q ∈ s, q ≠ [] → schedIdx s q.dropLast < schedIdx s q) ∧
  (∀ q ∈ s, ∀ w ∈ s, q ≠ [] → q.getLastD 0 ≠ 0 →
    leadWith (q.dropLast ++ [q.getLastD 0 - 1]) w = true →
    schedIdx s w < schedIdx s q)

lemma valid_mem_iff {t : EntityTree} {s : List (List Nat)}
    (hv : ValidSchedule t s) (p : List Nat) :
    p ∈ s ↔ isPos t p = true :=
  (hv.1.mem_iff).trans (mem_positionsList t p)

lemma sched_ancestor {t : EntityTree} {s : List (List Nat)}
    (hv : ValidSchedule t s) (q : List Nat) (rest : List Nat)
    (hrest : rest ≠ []) (hmem : q ++ rest ∈ s) :
    schedIdx s q < schedIdx s (q ++ rest) := by
  induction rest using List.reverseRecOn with
  | nil => exact absurd rfl hrest
  | append_singleton l a ih =>
    have hne : q ++ (l ++ [a]) ≠ [] := by simp
    have hp := hv.2.1 (q ++ (l ++ [a])) hmem hne
    have hdrop : (q ++ (l ++ [a])).dropLast = q ++ l := by
      rw [← List.append_assoc]
      exact List.dropLast_concat
    rw [hdrop] at hp
    cases l with
    | nil => simpa using hp
    | cons y ys =>
      have hmem' : q ++ (y :: ys) ∈ s := by
        rw [valid_mem_iff hv]
        have hpos : isPos t ((q ++ (y :: ys)) ++ [a]) = true := by
          rw [List.append_assoc]
          exact (valid_mem_iff hv _).mp hmem
        exact isPos_append_left t _ _ hpos
      exact lt_trans (ih (by simp) hmem') hp

lemma sched_sibling_chain {t : EntityTree} {s : List (List Nat)}
    (hv : ValidSchedule t s) (r : List Nat) (i j : Nat) (hij : i < j)
    (hj : r ++ [j] ∈ s) (a : List Nat) (ha : a ∈ s)
    (hlead : leadWith (r ++ [i]) a = true) :
    schedIdx s a < schedIdx s (r ++ [j]) := by
  induction j with
  | zero => omega
  | succ j ih =>
    have hqne : r ++ [j + 1] ≠ [] := by simp
    have hlastD : (r ++ [j + 1]).getLastD 0 = j + 1 :=
      List.getLastD_concat _ _ _
    have hdrop : (r ++ [j + 1]).dropLast = r := List.dropLast_concat
    rcases Nat.lt_or_ge i j with hlt | hge
    · have hjmem : r ++ [j] ∈ s := by
        rw [valid_mem_iff hv]
        exact isPos_sibling_le t r j (j + 1) (by omega)
          ((valid_mem_iff hv _).mp hj)
      have h1 : schedIdx s a < schedIdx s (r ++ [j]) := ih hlt hjmem
      have h2 : schedIdx s (r ++ [j]) < schedIdx s (r ++ [j + 1]) := by
        have := hv.2.2 (r ++ [j + 1]) hj (r ++ [j]) hjmem hqne
          (by rw [hlastD]; omega)
        rw [hlastD, hdrop] at this
        refine this ?_
        have : j + 1 - 1 = j := by omega
        rw [this]
        have := leadWith_append (r ++ [j]) ([] : List Nat)
        simpa using this
      exact lt_trans h1 h2
    · have hieq : i = j := by omega
      subst hieq
      have := hv.2.2 (r ++ [i + 1]) hj a ha hqne (by rw [hlastD]; omega)
      rw [hlastD, hdrop] at this
      refine this ?_
      have hsub : i + 1 - 1 = i := by omega
      rw [hsub]
      exact hlead

lemma sched_mono {t : EntityTree} {s : List (List Nat)}
    (hv : ValidSchedule t s) (a b : List Nat) (ha : a ∈ s) (hb : b ∈ s)
    (hlt : lexLt a b = true) : schedIdx s a < schedIdx s b := by
  rcases lexLt_cases a b hlt with ⟨rest, hrest, rfl⟩ |
    ⟨r, i, j, a2, b2, hij, rfl, rfl⟩
  · exact sched_ancestor hv a rest hrest hb
  · have hbsplit : r ++ j :: b2 = (r ++ [j]) ++ b2 := by simp
    have hasplit : r ++ i :: a2 = (r ++ [i]) ++ a2 := by simp
    have hbj : r ++ [j] ∈ s := by
      rw [valid_mem_iff hv]
      refine isPos_append_left t (r ++ [j]) b2 ?_
      rw [← hbsplit]
      exact (valid_mem_iff hv _).mp hb
    have hstep : schedIdx s (r ++ i :: a2) < schedIdx s (r ++ [j]) := by
      refine sched_sibling_chain hv r i j hij hbj _ ha ?_
      rw [hasplit]
      exact leadWith_append _ _
    have hend : schedIdx s (r ++ [j]) ≤ schedIdx s (r ++ j :: b2) := by
      cases b2 with
      | nil => simp
      | cons y ys =>
        refine le_of_lt ?_
        have := sched_ancestor hv (r ++ [j]) (y :: ys) (by simp)
          (by rw [← hbsplit]; exact hb)
        rw [hbsplit]
        exact this
    exact lt_of_lt_of_le hstep hend

instance : IsAntisymm (List Nat) (fun a b => lexLt a b = true) :=
  ⟨fun a b h1 h2 => (lexLt_asymm a b h1 h2).elim⟩

/-- C1: any output sequence an execution of the threaded `CanvasEntity.sync`
can produce — any interleaving of flush moments consistent with the two wait
conditions in the code — is exactly the preorder listing of the tree: each
parent line precedes its child blocks and sibling blocks appear in
declared order, recursively. -/
theorem C1_print_order (t : EntityTree) (s : List (List Nat))
    (hv : ValidSchedule t s) : s = positionsList t := by
  have hpre_pairwise := pairwise_positionsList t
  have hpre_nodup : (positionsList t).Nodup := by
    refine hpre_pairwise.imp ?_
    intro a b h heq
    subst heq
    rw [lexLt_irrefl] at h
    exact Bool.noConfusion h
  have hs_nodup : s.Nodup := (hv.1.nodup_iff).mpr hpre_nodup
  have hidx : ∀ (i : Nat) (hi : i < s.length), schedIdx s s[i] = i := by
    intro i hi
    unfold schedIdx
    have h1 : @List.indexOf (List Nat) instBEqOfDecidableEq s[i] s <
        s.length :=
      List.indexOf_lt_length.mpr (s.getElem_mem hi)
    have h2 : s[@List.indexOf (List Nat) instBEqOfDecidableEq s[i] s] =
        s[i] := List.getElem_indexOf h1
    exact hs_nodup.getElem_inj_iff.mp h2
  have hs_sorted : s.Pairwise (fun a b => lexLt a b = true) := by
    rw [List.pairwise_iff_getElem]
    intro i j hi hj hij
    by_contra hnot
    have hne : s[i] ≠ s[j] := by
      intro h
      exact absurd (hs_nodup.getElem_inj_iff.mp h) (by omega)
    rcases lexLt_total s[i] s[j] hne with h | h
    · exact hnot h
    · have := sched_mono hv s[j] s[i] (s.getElem_mem hj) (s.getElem_mem hi) h
      rw [hidx i hi, hidx j hj] at this
      omega
  exact List.eq_of_perm_of_sorted hv.1 hs_sorted hpre_pairwise

/-- C1 witness: for the concrete tree with two children, the first of which
has two leaf children, the explicit preorder sequence is the only valid
schedule; the hypothesis is discharged by computation, which also shows the
constraint set is satisfiable. -/
theorem C1_print_order_witness :
    [[], [0], [0, 0], [0, 1], [1]] =
      positionsList (.node [.node [.node [], .node []], .node []]) :=
  C1_print_order (.node [.node [.node [], .node []], .node []])
    [[], [0], [0, 0], [0, 1], [1]]
    (by unfold ValidSchedule schedIdx; decide)
